import Mathlib

/-!
Shallow embedding of `trlx/model/accelerate_base_model.py` (class
`AccelerateRLModel`), covering the pieces the specification talks about:

* the layer-freeze policy of `__init__` (`gpt_blocks_to_freeze`),
* the generation wrapper `generate` (kwargs merging, no-grad),
* the evaluation driver `evaluate` (padding, gather, reward/metric stats),
* the training loop `learn` (iteration counter, checkpoint/eval cadence,
  termination, per-batch and per-epoch callbacks).

External effects (checkpoint saves, evaluation runs, callback hooks) are
recorded as an event trace; wall-clock times and the logging sink are not
modelled.  `%` on the counter uses `Nat.mod`; theorems about the loop take
positive intervals and a positive step budget as hypotheses, matching
configurations on which the Python code does not raise `ZeroDivisionError`.
-/

/-- One observable side effect of the training loop, tagged with the value
of `iter_count` at the moment it happens. -/
inductive Event where
  | save (step : Nat)
  | eval (step : Nat)
  | postBackward (step : Nat)
  | postEpoch (step : Nat)
deriving DecidableEq, Repr

/-- The configuration fields of `config.train` (plus loop shape) that
`learn` reads: number of epochs, number of batches yielded per epoch by
`train_dataloader`, `n_updates_per_batch`, `total_steps`,
`checkpoint_interval` and `eval_interval`. -/
structure LearnConfig where
  epochs : Nat
  numBatches : Nat
  nUpdatesPerBatch : Nat
  totalSteps : Nat
  checkpointInterval : Nat
  evalInterval : Nat
deriving DecidableEq, Repr

/-- Result of (a suffix of) `learn`: the final `iter_count`, the trace of
events, and whether the `iter_count >= total_steps` early return fired. -/
structure LearnResult where
  iterCount : Nat
  trace : List Event
  done : Bool
deriving DecidableEq, Repr

/-- The two cadence checks performed after each update, in source order:
`if iter_count % checkpoint_interval == 0: save()` then
`if iter_count % eval_interval == 0: evaluate()`. -/
def cadence (cfg : LearnConfig) (iter : Nat) : List Event :=
  (if iter % cfg.checkpointInterval = 0 then [Event.save iter] else [])
    ++ (if iter % cfg.evalInterval = 0 then [Event.eval iter] else [])

/-- The inner `for _ in range(self.n_updates_per_batch)` loop of `learn`,
started with `u` remaining repetitions and `iter_count = it`.  Each update
increments the counter, runs the cadence checks, and then tests
`iter_count >= total_steps`; on termination it saves, evaluates and
returns (`done = true`). -/
def runUpdates (cfg : LearnConfig) : Nat → Nat → LearnResult
  | 0, it => ⟨it, [], false⟩
  | u + 1, it =>
    let iter := it + 1
    let ev := cadence cfg iter
    if cfg.totalSteps ≤ iter then
      ⟨iter, ev ++ [Event.save iter, Event.eval iter], true⟩
    else
      let r := runUpdates cfg u iter
      ⟨r.iterCount, ev ++ r.trace, r.done⟩

/-- The `for batch in self.train_dataloader` loop with `b` remaining
batches: run all update repetitions for the batch, then (if the early
return did not fire) call `post_backward_callback` and continue. -/
def runBatches (cfg : LearnConfig) : Nat → Nat → LearnResult
  | 0, it => ⟨it, [], false⟩
  | b + 1, it =>
    let r := runUpdates cfg cfg.nUpdatesPerBatch it
    if r.done then r
    else
      let r2 := runBatches cfg b r.iterCount
      ⟨r2.iterCount, r.trace ++ [Event.postBackward r.iterCount] ++ r2.trace, r2.done⟩

/-- The `for _ in range(self.config.train.epochs)` loop with `e` remaining
epochs: run all batches of the epoch, then (if the early return did not
fire) call `post_epoch_callback` and continue. -/
def runEpochs (cfg : LearnConfig) : Nat → Nat → LearnResult
  | 0, it => ⟨it, [], false⟩
  | e + 1, it =>
    let r := runBatches cfg cfg.numBatches it
    if r.done then r
    else
      let r2 := runEpochs cfg e r.iterCount
      ⟨r2.iterCount, r.trace ++ [Event.postEpoch r.iterCount] ++ r2.trace, r2.done⟩

/-- `AccelerateRLModel.learn`: `iter_count` starts at `0`, then the
epoch/batch/update loops run. -/
def learn (cfg : LearnConfig) : LearnResult :=
  runEpochs cfg cfg.epochs 0

/-- The step tag of a `save` event, used to collect checkpoint steps. -/
def saveStep : Event → Option Nat
  | Event.save t => some t
  | _ => none

/-- The step tag of an `eval` event, used to collect evaluation steps. -/
def evalStep : Event → Option Nat
  | Event.eval t => some t
  | _ => none

/-- The step tag of a `post_backward_callback` event. -/
def postBackwardStep : Event → Option Nat
  | Event.postBackward t => some t
  | _ => none

/-- The step tag of a `post_epoch_callback` event. -/
def postEpochStep : Event → Option Nat
  | Event.postEpoch t => some t
  | _ => none

/-- The layer-freeze computation of `AccelerateRLModel.__init__`:
`if num_layers_unfrozen == 0: list(gpt_blocks)`,
`elif num_layers_unfrozen > 0: list(gpt_blocks)[:-num_layers_unfrozen]`
(a Python slice `xs[:-n]` with `n > 0` keeps the first `len - n` elements
and is empty once `n ≥ len`), `else: []`. -/
def gptBlocksToFreeze {α : Type} (gptBlocks : List α) (numLayersUnfrozen : Int) :
    List α :=
  if numLayersUnfrozen = 0 then gptBlocks
  else if 0 < numLayersUnfrozen then
    gptBlocks.take (gptBlocks.length - numLayersUnfrozen.toNat)
  else []

/-- Python `d[k] = v` on an association-list dict: replace the entry whose
key is `k` in place, or append a fresh entry at the end. -/
def dictInsert : List (String × Nat) → String → Nat → List (String × Nat)
  | [], k, v => [(k, v)]
  | p :: rest, k, v =>
    if p.1 = k then (k, v) :: dictInsert rest k v else p :: dictInsert rest k v

/-- Python `dict(d, **kw)`: copy `d`, then insert the entries of `kw` in
order. -/
def dictUpdate (d kw : List (String × Nat)) : List (String × Nat) :=
  kw.foldl (fun acc p => dictInsert acc p.1 p.2) d

/-- Dict lookup (`d.get(k)`): the value of the first entry with key `k`. -/
def dictGet : List (String × Nat) → String → Option Nat
  | [], _ => none
  | p :: rest, k => if p.1 = k then some p.2 else dictGet rest k

/-- What `AccelerateRLModel.generate` hands to the underlying decoding
call: the merged keyword arguments, and whether gradient tracking is
enabled around the call. -/
structure GenerateCall where
  kwargs : List (String × Nat)
  gradEnabled : Bool
deriving DecidableEq, Repr

/-- `AccelerateRLModel.generate`: `kwargs = dict(self.generate_kwargs,
**kwargs)`, then the decoding call runs inside `with torch.no_grad()`. -/
def generate (generateKwargs kwargs : List (String × Nat)) : GenerateCall :=
  { kwargs := dictUpdate generateKwargs kwargs, gradEnabled := false }

/-- The tokenizer as `evaluate` uses it: its `eos_token_id` and its
`batch_decode` on a single row (special-token stripping folded into
`decode`). -/
structure Tokenizer where
  eosTokenId : Nat
  decode : List Nat → String

/-- `pad_token = self.tokenizer.eos_token_id if self.tokenizer else 0`. -/
def padTokenOf : Option Tokenizer → Nat
  | some t => t.eosTokenId
  | none => 0

/-- `F.pad(row, (0, amount), value=v)` on the last dimension: a
non-negative `amount` appends `amount` copies of `v` on the right; a
negative `amount` removes `-amount` entries from the right. -/
def fpadRight (row : List Nat) (amount : Int) (v : Nat) : List Nat :=
  if 0 ≤ amount then row ++ List.replicate amount.toNat v
  else row.take (((row.length : Int) + amount).toNat)

/-- `samples.shape[1]` of a batch of token rows. -/
def batchWidth (b : List (List Nat)) : Nat :=
  match b with
  | [] => 0
  | r :: _ => r.length

/-- One generated batch as accumulated by `evaluate`:
`F.pad(samples, (0, self.max_length - samples.shape[1]), value=pad_token)`. -/
def padSampleBatch (maxLength padToken : Nat) (b : List (List Nat)) :
    List (List Nat) :=
  b.map (fun row => fpadRight row ((maxLength : Int) - (batchWidth b : Int)) padToken)

/-- `torch.vstack(all_samples)`: row-wise concatenation of the batches. -/
def vstack (bs : List (List (List Nat))) : List (List Nat) := bs.flatten

/-- `accelerator.gather` seen by one process: concatenation in rank order,
which on a single process is the identity. -/
def gatherRows (rows : List (List Nat)) : List (List Nat) := rows

/-- The sample collection handed to `reward_fn`/`metric_fn`: decoded text
when a tokenizer is configured, raw token rows otherwise. -/
inductive Samples where
  | text (xs : List String)
  | tokens (xs : List (List Nat))
deriving DecidableEq

/-- `samples = self.tokenizer.batch_decode(samples, skip_special_tokens=
True)` when a tokenizer is configured; otherwise the gathered rows are
kept as they are. -/
def decodeGathered : Option Tokenizer → List (List Nat) → Samples
  | some t, g => Samples.text (g.map t.decode)
  | none, g => Samples.tokens g

/-- The full gathered (and, given a tokenizer, decoded) sample sequence
the main process works with in `evaluate`. -/
def mainSamples (tok : Option Tokenizer) (maxLength : Nat)
    (batches : List (List (List Nat))) : Samples :=
  decodeGathered tok
    (gatherRows (vstack (batches.map (padSampleBatch maxLength (padTokenOf tok)))))

/-- The keys of the statistics dict built by `evaluate`. -/
inductive StatKey where
  | generateTime
  | meanReward
  | metricTime
  | metric (name : String)
  | samples
deriving DecidableEq, Repr

/-- `torch.as_tensor(xs).mean()`: the arithmetic mean. -/
def listMean (xs : List Rat) : Rat := xs.sum / (xs.length : Rat)

/-- Everything observable about one call of `evaluate`: the accumulated
padded batches, the gathered rows, the statistics keys in insertion order,
the recorded `mean_reward`, and the argument lists passed to `reward_fn`
and `metric_fn`. -/
structure EvalResult where
  accumulated : List (List (List Nat))
  gathered : List (List Nat)
  keys : List StatKey
  meanReward : Option Rat
  rewardCalls : List Samples
  metricCalls : List Samples

/-- `AccelerateRLModel.evaluate`: accumulate padded sample batches, stack
and gather them, then (main process only) decode, score with the optional
reward function, compute the optional metrics, and build the stats dict in
source order: `generate_time`, `mean_reward`, `metric_time`,
`metrics/<name>` per metric, `samples`. -/
def evaluate (isMain : Bool) (tok : Option Tokenizer) (maxLength : Nat)
    (rewardFn : Option (Samples → List Rat))
    (metricFn : Option (Samples → List (String × List Rat)))
    (batches : List (List (List Nat))) : EvalResult :=
  let allSamples := batches.map (padSampleBatch maxLength (padTokenOf tok))
  let gathered := gatherRows (vstack allSamples)
  if isMain then
    let samples := decodeGathered tok gathered
    let rstats : List StatKey × Option Rat × List Samples :=
      match rewardFn with
      | some f => ([StatKey.meanReward], some (listMean (f samples)), [samples])
      | none => ([], none, [])
    let mstats : List StatKey × List Samples :=
      match metricFn with
      | some g =>
        (StatKey.metricTime :: (g samples).map (fun p => StatKey.metric p.1),
          [samples])
      | none => ([], [])
    { accumulated := allSamples
      gathered := gathered
      keys := [StatKey.generateTime] ++ rstats.1 ++ mstats.1 ++ [StatKey.samples]
      meanReward := rstats.2.1
      rewardCalls := rstats.2.2
      metricCalls := mstats.2 }
  else
    { accumulated := allSamples
      gathered := gathered
      keys := [StatKey.generateTime]
      meanReward := none
      rewardCalls := []
      metricCalls := [] }

/-- If the step budget is not reached within `u` further updates, the inner
loop completes them all and the early return does not fire. -/
lemma runUpdates_lt (cfg : LearnConfig) (u it : Nat) (h : it + u < cfg.totalSteps) :
    (runUpdates cfg u it).iterCount = it + u ∧ (runUpdates cfg u it).done = false := by
  induction u generalizing it with
  | zero => simp [runUpdates]
  | succ u ih =>
    have h1 : ¬ cfg.totalSteps ≤ it + 1 := by omega
    have h2 := ih (it + 1) (by omega)
    simp only [runUpdates, h1, if_false]
    exact ⟨by rw [h2.1]; omega, h2.2⟩

/-- If the step budget lies within the next `u` updates, the inner loop
stops exactly at `total_steps` and the early return fires. -/
lemma runUpdates_ge (cfg : LearnConfig) (u it : Nat) (h1 : it < cfg.totalSteps)
    (h2 : cfg.totalSteps ≤ it + u) :
    (runUpdates cfg u it).iterCount = cfg.totalSteps ∧ (runUpdates cfg u it).done = true := by
  induction u generalizing it with
  | zero => omega
  | succ u ih =>
    by_cases hc : cfg.totalSteps ≤ it + 1
    · have : cfg.totalSteps = it + 1 := by omega
      simp [runUpdates, hc, this]
    · have h3 := ih (it + 1) (by omega) (by omega)
      simp only [runUpdates, hc, if_false]
      exact h3

/-- If the inner loop's early return did not fire, it performed all `u`
updates. -/
lemma runUpdates_false (cfg : LearnConfig) (u it : Nat)
    (h : (runUpdates cfg u it).done = false) :
    (runUpdates cfg u it).iterCount = it + u := by
  induction u generalizing it with
  | zero => simp [runUpdates]
  | succ u ih =>
    by_cases hc : cfg.totalSteps ≤ it + 1
    · simp [runUpdates, hc] at h
    · simp only [runUpdates, hc, if_false] at h ⊢
      rw [ih (it + 1) h]; omega

/-- The cadence checks emit only `save` and `eval` events. -/
lemma cadence_filter_pb (cfg : LearnConfig) (i : Nat) :
    (cadence cfg i).filterMap postBackwardStep = [] := by
  unfold cadence
  split <;> split <;> rfl

/-- The cadence checks emit only `save` and `eval` events. -/
lemma cadence_filter_pe (cfg : LearnConfig) (i : Nat) :
    (cadence cfg i).filterMap postEpochStep = [] := by
  unfold cadence
  split <;> split <;> rfl

/-- The inner update loop never invokes `post_backward_callback`. -/
lemma runUpdates_filter_pb (cfg : LearnConfig) (u it : Nat) :
    (runUpdates cfg u it).trace.filterMap postBackwardStep = [] := by
  induction u generalizing it with
  | zero => rfl
  | succ u ih =>
    by_cases hc : cfg.totalSteps ≤ it + 1 <;>
      simp [runUpdates, hc, List.filterMap_append, cadence_filter_pb,
        postBackwardStep, ih]

/-- The inner update loop never invokes `post_epoch_callback`. -/
lemma runUpdates_filter_pe (cfg : LearnConfig) (u it : Nat) :
    (runUpdates cfg u it).trace.filterMap postEpochStep = [] := by
  induction u generalizing it with
  | zero => rfl
  | succ u ih =>
    by_cases hc : cfg.totalSteps ≤ it + 1 <;>
      simp [runUpdates, hc, List.filterMap_append, cadence_filter_pe,
        postEpochStep, ih]

/-- If the step budget is not reached within `b` further whole batches, the
batch loop completes them all and the early return does not fire. -/
lemma runBatches_lt (cfg : LearnConfig) (b it : Nat)
    (h : it + b * cfg.nUpdatesPerBatch < cfg.totalSteps) :
    (runBatches cfg b it).iterCount = it + b * cfg.nUpdatesPerBatch ∧
      (runBatches cfg b it).done = false := by
  induction b generalizing it with
  | zero => simp [runBatches]
  | succ b ih =>
    have hsm : (b + 1) * cfg.nUpdatesPerBatch
        = b * cfg.nUpdatesPerBatch + cfg.nUpdatesPerBatch := Nat.succ_mul _ _
    have hU : it + cfg.nUpdatesPerBatch < cfg.totalSteps := by omega
    have hr := runUpdates_lt cfg cfg.nUpdatesPerBatch it hU
    have hrec := ih (it + cfg.nUpdatesPerBatch) (by omega)
    simp only [runBatches, hr.2, Bool.false_eq_true, if_false, hr.1]
    exact ⟨by rw [hrec.1]; omega, hrec.2⟩

/-- If the step budget lies within the next `b` batches, the batch loop
stops exactly at `total_steps` and the early return fires. -/
lemma runBatches_ge (cfg : LearnConfig) (b it : Nat) (h1 : it < cfg.totalSteps)
    (h2 : cfg.totalSteps ≤ it + b * cfg.nUpdatesPerBatch) :
    (runBatches cfg b it).iterCount = cfg.totalSteps ∧
      (runBatches cfg b it).done = true := by
  induction b generalizing it with
  | zero => omega
  | succ b ih =>
    have hsm : (b + 1) * cfg.nUpdatesPerBatch
        = b * cfg.nUpdatesPerBatch + cfg.nUpdatesPerBatch := Nat.succ_mul _ _
    by_cases hc : cfg.totalSteps ≤ it + cfg.nUpdatesPerBatch
    · have hr := runUpdates_ge cfg cfg.nUpdatesPerBatch it h1 hc
      simp only [runBatches, hr.2, if_true]
      exact ⟨hr.1, trivial⟩
    · have hr := runUpdates_lt cfg cfg.nUpdatesPerBatch it (by omega)
      have hrec := ih (it + cfg.nUpdatesPerBatch) (by omega) (by omega)
      simp only [runBatches, hr.2, Bool.false_eq_true, if_false, hr.1]
      exact hrec

/-- A batch loop whose early return did not fire ran `b * U` updates and
invoked `post_backward_callback` exactly once per batch, at the step counts
`it + U, it + 2U, …, it + bU`; it never invoked `post_epoch_callback`. -/
lemma runBatches_false (cfg : LearnConfig) (b it : Nat)
    (h : (runBatches cfg b it).done = false) :
    (runBatches cfg b it).iterCount = it + b * cfg.nUpdatesPerBatch ∧
      (runBatches cfg b it).trace.filterMap postBackwardStep
        = (List.range b).map (fun i => it + (i + 1) * cfg.nUpdatesPerBatch) ∧
      (runBatches cfg b it).trace.filterMap postEpochStep = [] := by
  induction b generalizing it with
  | zero => simp [runBatches]
  | succ b ih =>
    by_cases hr : (runUpdates cfg cfg.nUpdatesPerBatch it).done
    · simp only [runBatches, hr, if_true] at h
      exact absurd h (by simp)
    · rw [Bool.not_eq_true] at hr
      have hit := runUpdates_false cfg cfg.nUpdatesPerBatch it hr
      simp only [runBatches, hr, Bool.false_eq_true, if_false, hit] at h ⊢
      have hrec := ih (it + cfg.nUpdatesPerBatch) h
      refine ⟨by rw [hrec.1]; ring, ?_, ?_⟩
      · rw [List.filterMap_append, List.filterMap_append,
          runUpdates_filter_pb, hrec.2.1]
        have hone : List.filterMap postBackwardStep
            [Event.postBackward (it + cfg.nUpdatesPerBatch)]
            = [it + cfg.nUpdatesPerBatch] := rfl
        rw [hone, List.range_succ_eq_map, List.map_cons, List.map_map]
        have hfun : ∀ i ∈ List.range b,
            ((fun i => it + (i + 1) * cfg.nUpdatesPerBatch) ∘ Nat.succ) i
              = it + cfg.nUpdatesPerBatch + (i + 1) * cfg.nUpdatesPerBatch := by
          intro i _
          show it + (i + 1 + 1) * cfg.nUpdatesPerBatch = _
          ring
        rw [List.map_congr_left hfun]
        simp [Nat.one_mul]
      · rw [List.filterMap_append, List.filterMap_append,
          runUpdates_filter_pe, hrec.2.2]
        rfl

/-- An epoch loop whose early return did not fire ran `e * B * U` updates,
invoked `post_backward_callback` once per batch (at steps `it + U, it + 2U,
…`) and `post_epoch_callback` once per epoch (at steps `it + BU, it + 2BU,
…`). -/
lemma runEpochs_false (cfg : LearnConfig) (e it : Nat)
    (h : (runEpochs cfg e it).done = false) :
    (runEpochs cfg e it).iterCount
        = it + e * (cfg.numBatches * cfg.nUpdatesPerBatch) ∧
      (runEpochs cfg e it).trace.filterMap postBackwardStep
        = (List.range (e * cfg.numBatches)).map
            (fun i => it + (i + 1) * cfg.nUpdatesPerBatch) ∧
      (runEpochs cfg e it).trace.filterMap postEpochStep
        = (List.range e).map
            (fun i => it + (i + 1) * (cfg.numBatches * cfg.nUpdatesPerBatch)) := by
  induction e generalizing it with
  | zero => simp [runEpochs]
  | succ e ih =>
    by_cases hr : (runBatches cfg cfg.numBatches it).done
    · simp only [runEpochs, hr, if_true] at h
      exact absurd h (by simp)
    · rw [Bool.not_eq_true] at hr
      have hb := runBatches_false cfg cfg.numBatches it hr
      simp only [runEpochs, hr, Bool.false_eq_true, if_false, hb.1] at h ⊢
      have hrec := ih (it + cfg.numBatches * cfg.nUpdatesPerBatch) h
      refine ⟨by rw [hrec.1]; ring, ?_, ?_⟩
      · rw [List.filterMap_append, List.filterMap_append, hb.2.1, hrec.2.1]
        have hmul : (e + 1) * cfg.numBatches
            = cfg.numBatches + e * cfg.numBatches := by ring
        rw [hmul, List.range_add, List.map_append, List.map_map]
        have hfun : ∀ i ∈ List.range (e * cfg.numBatches),
            ((fun i => it + (i + 1) * cfg.nUpdatesPerBatch)
                ∘ (fun x => cfg.numBatches + x)) i
              = it + cfg.numBatches * cfg.nUpdatesPerBatch
                  + (i + 1) * cfg.nUpdatesPerBatch := by
          intro i _
          show it + (cfg.numBatches + i + 1) * cfg.nUpdatesPerBatch = _
          ring
        rw [List.map_congr_left hfun]
        have hnone : List.filterMap postBackwardStep
            [Event.postEpoch (it + cfg.numBatches * cfg.nUpdatesPerBatch)]
            = [] := rfl
        rw [hnone]
        simp
      · rw [List.filterMap_append, List.filterMap_append, hb.2.2, hrec.2.2]
        have hone : List.filterMap postEpochStep
            [Event.postEpoch (it + cfg.numBatches * cfg.nUpdatesPerBatch)]
            = [it + cfg.numBatches * cfg.nUpdatesPerBatch] := rfl
        rw [hone, List.range_succ_eq_map, List.map_cons, List.map_map]
        have hfun : ∀ i ∈ List.range e,
            ((fun i => it + (i + 1) * (cfg.numBatches * cfg.nUpdatesPerBatch))
                ∘ Nat.succ) i
              = it + cfg.numBatches * cfg.nUpdatesPerBatch
                  + (i + 1) * (cfg.numBatches * cfg.nUpdatesPerBatch) := by
          intro i _
          show it + (i + 1 + 1) * (cfg.numBatches * cfg.nUpdatesPerBatch) = _
          ring
        rw [List.map_congr_left hfun]
        simp [Nat.one_mul]

/-- If the step budget is not reached within `e` further whole epochs, the
epoch loop completes them all and the early return does not fire. -/
lemma runEpochs_lt (cfg : LearnConfig) (e it : Nat)
    (h : it + e * (cfg.numBatches * cfg.nUpdatesPerBatch) < cfg.totalSteps) :
    (runEpochs cfg e it).iterCount
        = it + e * (cfg.numBatches * cfg.nUpdatesPerBatch) ∧
      (runEpochs cfg e it).done = false := by
  induction e generalizing it with
  | zero => simp [runEpochs]
  | succ e ih =>
    have hsm : (e + 1) * (cfg.numBatches * cfg.nUpdatesPerBatch)
        = e * (cfg.numBatches * cfg.nUpdatesPerBatch)
            + cfg.numBatches * cfg.nUpdatesPerBatch := Nat.succ_mul _ _
    have hb := runBatches_lt cfg cfg.numBatches it (by omega)
    have hrec := ih (it + cfg.numBatches * cfg.nUpdatesPerBatch) (by omega)
    simp only [runEpochs, hb.2, Bool.false_eq_true, if_false, hb.1]
    exact ⟨by rw [hrec.1]; omega, hrec.2⟩

/-- If the step budget lies within the next `e` epochs, the epoch loop
stops exactly at `total_steps` and the early return fires. -/
lemma runEpochs_ge (cfg : LearnConfig) (e it : Nat) (h1 : it < cfg.totalSteps)
    (h2 : cfg.totalSteps ≤ it + e * (cfg.numBatches * cfg.nUpdatesPerBatch)) :
    (runEpochs cfg e it).iterCount = cfg.totalSteps ∧
      (runEpochs cfg e it).done = true := by
  induction e generalizing it with
  | zero => omega
  | succ e ih =>
    have hsm : (e + 1) * (cfg.numBatches * cfg.nUpdatesPerBatch)
        = e * (cfg.numBatches * cfg.nUpdatesPerBatch)
            + cfg.numBatches * cfg.nUpdatesPerBatch := Nat.succ_mul _ _
    by_cases hc : cfg.totalSteps ≤ it + cfg.numBatches * cfg.nUpdatesPerBatch
    · have hb := runBatches_ge cfg cfg.numBatches it h1 hc
      simp only [runEpochs, hb.2, if_true]
      exact ⟨hb.1, trivial⟩
    · have hb := runBatches_lt cfg cfg.numBatches it (by omega)
      have hrec := ih (it + cfg.numBatches * cfg.nUpdatesPerBatch)
        (by omega) (by omega)
      simp only [runEpochs, hb.2, Bool.false_eq_true, if_false, hb.1]
      exact hrec

/-- Characterisation of the `postBackward` tag extractor. -/
lemma postBackwardStep_eq_some {e : Event} {t : Nat} :
    postBackwardStep e = some t ↔ e = Event.postBackward t := by
  cases e <;> simp [postBackwardStep]

/-- Characterisation of the `postEpoch` tag extractor. -/
lemma postEpochStep_eq_some {e : Event} {t : Nat} :
    postEpochStep e = some t ↔ e = Event.postEpoch t := by
  cases e <;> simp [postEpochStep]

/-- A `post_backward_callback` event is in a trace iff its step is among
the extracted `postBackward` tags. -/
lemma mem_pb (l : List Event) (t : Nat) :
    Event.postBackward t ∈ l ↔ t ∈ l.filterMap postBackwardStep := by
  simp [List.mem_filterMap, postBackwardStep_eq_some]

/-- A `post_epoch_callback` event is in a trace iff its step is among the
extracted `postEpoch` tags. -/
lemma mem_pe (l : List Event) (t : Nat) :
    Event.postEpoch t ∈ l ↔ t ∈ l.filterMap postEpochStep := by
  simp [List.mem_filterMap, postEpochStep_eq_some]

/-- When the inner update loop fires the early return, its trace ends with
the terminal checkpoint save followed by the terminal evaluation, and the
counter strictly advanced. -/
lemma runUpdates_true (cfg : LearnConfig) (u it : Nat)
    (h : (runUpdates cfg u it).done = true) :
    ∃ pre, (runUpdates cfg u it).trace
        = pre ++ [Event.save (runUpdates cfg u it).iterCount,
            Event.eval (runUpdates cfg u it).iterCount]
      ∧ it < (runUpdates cfg u it).iterCount := by
  induction u generalizing it with
  | zero => simp [runUpdates] at h
  | succ u ih =>
    by_cases hc : cfg.totalSteps ≤ it + 1
    · exact ⟨cadence cfg (it + 1), by simp [runUpdates, hc], by simp [runUpdates, hc]⟩
    · simp only [runUpdates, hc, if_false] at h ⊢
      obtain ⟨pre, hpre, hlt⟩ := ih (it + 1) h
      exact ⟨cadence cfg (it + 1) ++ pre,
        by rw [hpre, List.append_assoc], by omega⟩

/-- When the batch loop fires the early return, its trace ends with the
terminal save and evaluation; every `post_backward_callback` in it happened
at a strictly earlier step, and it contains no `post_epoch_callback`. -/
lemma runBatches_true (cfg : LearnConfig) (b it : Nat)
    (h : (runBatches cfg b it).done = true) :
    ∃ pre, (runBatches cfg b it).trace
        = pre ++ [Event.save (runBatches cfg b it).iterCount,
            Event.eval (runBatches cfg b it).iterCount]
      ∧ (∀ t, Event.postBackward t ∈ (runBatches cfg b it).trace
          → t < (runBatches cfg b it).iterCount)
      ∧ (∀ t, Event.postEpoch t ∉ (runBatches cfg b it).trace)
      ∧ it < (runBatches cfg b it).iterCount := by
  induction b generalizing it with
  | zero => simp [runBatches] at h
  | succ b ih =>
    by_cases hr : (runUpdates cfg cfg.nUpdatesPerBatch it).done
    · simp only [runBatches, hr, if_true] at h ⊢
      obtain ⟨pre, hpre, hlt⟩ := runUpdates_true cfg cfg.nUpdatesPerBatch it hr
      refine ⟨pre, hpre, ?_, ?_, hlt⟩
      · intro t ht
        rw [mem_pb, runUpdates_filter_pb] at ht
        exact absurd ht (List.not_mem_nil t)
      · intro t ht
        rw [mem_pe, runUpdates_filter_pe] at ht
        exact absurd ht (List.not_mem_nil t)
    · rw [Bool.not_eq_true] at hr
      have hit := runUpdates_false cfg cfg.nUpdatesPerBatch it hr
      simp only [runBatches, hr, Bool.false_eq_true, if_false] at h ⊢
      obtain ⟨pre2, hpre2, hpb2, hpe2, hlt2⟩ :=
        ih (runUpdates cfg cfg.nUpdatesPerBatch it).iterCount h
      refine ⟨(runUpdates cfg cfg.nUpdatesPerBatch it).trace
          ++ [Event.postBackward (runUpdates cfg cfg.nUpdatesPerBatch it).iterCount]
          ++ pre2, ?_, ?_, ?_, ?_⟩
      · rw [hpre2, List.append_assoc, List.append_assoc, List.append_assoc]
      · intro t ht
        rcases List.mem_append.1 ht with ht | ht
        · rcases List.mem_append.1 ht with ht | ht
          · rw [mem_pb, runUpdates_filter_pb] at ht
            exact absurd ht (List.not_mem_nil t)
          · have : t = (runUpdates cfg cfg.nUpdatesPerBatch it).iterCount := by
              simpa using ht
            omega
        · exact hpb2 t ht
      · intro t ht
        rcases List.mem_append.1 ht with ht | ht
        · rcases List.mem_append.1 ht with ht | ht
          · rw [mem_pe, runUpdates_filter_pe] at ht
            exact absurd ht (List.not_mem_nil t)
          · simp at ht
        · exact hpe2 t ht
      · omega

/-- When the epoch loop fires the early return, its trace ends with the
terminal save and evaluation, and every `post_backward_callback` and
`post_epoch_callback` in it happened at a strictly earlier step. -/
lemma runEpochs_true (cfg : LearnConfig) (e it : Nat)
    (h : (runEpochs cfg e it).done = true) :
    ∃ pre, (runEpochs cfg e it).trace
        = pre ++ [Event.save (runEpochs cfg e it).iterCount,
            Event.eval (runEpochs cfg e it).iterCount]
      ∧ (∀ t, Event.postBackward t ∈ (runEpochs cfg e it).trace
          → t < (runEpochs cfg e it).iterCount)
      ∧ (∀ t, Event.postEpoch t ∈ (runEpochs cfg e it).trace
          → t < (runEpochs cfg e it).iterCount)
      ∧ it < (runEpochs cfg e it).iterCount := by
  induction e generalizing it with
  | zero => simp [runEpochs] at h
  | succ e ih =>
    by_cases hr : (runBatches cfg cfg.numBatches it).done
    · simp only [runEpochs, hr, if_true] at h ⊢
      obtain ⟨pre, hpre, hpb, hpe, hlt⟩ := runBatches_true cfg cfg.numBatches it hr
      exact ⟨pre, hpre, hpb, fun t ht => absurd ht (hpe t), hlt⟩
    · rw [Bool.not_eq_true] at hr
      have hb := runBatches_false cfg cfg.numBatches it hr
      simp only [runEpochs, hr, Bool.false_eq_true, if_false] at h ⊢
      obtain ⟨pre2, hpre2, hpb2, hpe2, hlt2⟩ :=
        ih (runBatches cfg cfg.numBatches it).iterCount h
      refine ⟨(runBatches cfg cfg.numBatches it).trace
          ++ [Event.postEpoch (runBatches cfg cfg.numBatches it).iterCount]
          ++ pre2, ?_, ?_, ?_, ?_⟩
      · rw [hpre2, List.append_assoc, List.append_assoc, List.append_assoc]
      · intro t ht
        rcases List.mem_append.1 ht with ht | ht
        · rcases List.mem_append.1 ht with ht | ht
          · rw [mem_pb, hb.2.1] at ht
            obtain ⟨i, hi, hti⟩ := List.mem_map.1 ht
            have hiB : i < cfg.numBatches := List.mem_range.1 hi
            have hmul : (i + 1) * cfg.nUpdatesPerBatch
                ≤ cfg.numBatches * cfg.nUpdatesPerBatch :=
              Nat.mul_le_mul_right _ hiB
            have := hb.1
            omega
          · simp at ht
        · exact hpb2 t ht
      · intro t ht
        rcases List.mem_append.1 ht with ht | ht
        · rcases List.mem_append.1 ht with ht | ht
          · rw [mem_pe, hb.2.2] at ht
            exact absurd ht (List.not_mem_nil t)
          · have : t = (runBatches cfg cfg.numBatches it).iterCount := by
              simpa using ht
            omega
        · exact hpe2 t ht
      · have := hb.1
        have hle : it ≤ it + cfg.numBatches * cfg.nUpdatesPerBatch := Nat.le_add_right _ _
        omega





/-- C1: for every run of `learn` with `E` epochs, `B` batches per epoch
and `U` updates per batch (on a configuration with a positive step budget
and positive cadence intervals, where the Python code raises no
`ZeroDivisionError`), the final `iter_count` equals
`min (E * B * U) total_steps`: it starts at 0, goes up by exactly 1 per
inner-loop update, and `learn` returns as soon as it reaches
`total_steps`. -/
theorem learn_iter_count (cfg : LearnConfig) (hT : 0 < cfg.totalSteps)
    (_hc : 0 < cfg.checkpointInterval) (_he : 0 < cfg.evalInterval) :
    (learn cfg).iterCount
      = min (cfg.epochs * cfg.numBatches * cfg.nUpdatesPerBatch) cfg.totalSteps := by
  have hk : cfg.epochs * (cfg.numBatches * cfg.nUpdatesPerBatch)
      = cfg.epochs * cfg.numBatches * cfg.nUpdatesPerBatch :=
    (Nat.mul_assoc _ _ _).symm
  unfold learn
  by_cases h : cfg.epochs * cfg.numBatches * cfg.nUpdatesPerBatch < cfg.totalSteps
  · have h2 := runEpochs_lt cfg cfg.epochs 0 (by rw [Nat.zero_add, hk]; exact h)
    rw [h2.1, Nat.zero_add, hk, Nat.min_eq_left (Nat.le_of_lt h)]
  · have h2 := runEpochs_ge cfg cfg.epochs 0 hT
      (by rw [Nat.zero_add, hk]; omega)
    rw [h2.1, Nat.min_eq_right (Nat.le_of_not_lt h)]

/-- Witness for C1 at the concrete configuration `E = 2, B = 3, U = 1,
total_steps = 4`: the loop stops at `min 6 4 = 4`. -/
theorem learn_iter_count_witness : (learn ⟨2, 3, 1, 4, 2, 2⟩).iterCount = 4 :=
  (learn_iter_count ⟨2, 3, 1, 4, 2, 2⟩ (by decide) (by decide) (by decide)).trans
    (by decide)

/-- C2: whenever `iter_count` reaches `total_steps` inside the inner
update loop, the trace ends with the terminal checkpoint save followed by
the terminal evaluation — `learn` returns the evaluation's stats right
there — and the `post_backward_callback` / `post_epoch_callback` of the
interrupted batch and epoch (which would carry the final step count) never
run. -/
theorem learn_terminal (cfg : LearnConfig)
    (_hc : 0 < cfg.checkpointInterval) (_he : 0 < cfg.evalInterval)
    (h : (learn cfg).done = true) :
    ∃ pre, (learn cfg).trace
        = pre ++ [Event.save (learn cfg).iterCount, Event.eval (learn cfg).iterCount]
      ∧ Event.postBackward (learn cfg).iterCount ∉ pre
      ∧ Event.postEpoch (learn cfg).iterCount ∉ pre := by
  unfold learn at h ⊢
  obtain ⟨pre, hpre, hpb, hpe, _⟩ := runEpochs_true cfg cfg.epochs 0 h
  refine ⟨pre, hpre, ?_, ?_⟩
  · intro hmem
    have hin : Event.postBackward (runEpochs cfg cfg.epochs 0).iterCount
        ∈ (runEpochs cfg cfg.epochs 0).trace := by
      rw [hpre]; exact List.mem_append_left _ hmem
    exact absurd (hpb _ hin) (lt_irrefl _)
  · intro hmem
    have hin : Event.postEpoch (runEpochs cfg cfg.epochs 0).iterCount
        ∈ (runEpochs cfg cfg.epochs 0).trace := by
      rw [hpre]; exact List.mem_append_left _ hmem
    exact absurd (hpe _ hin) (lt_irrefl _)

/-- Witness for C2 at `E = B = U = 1, total_steps = 1`: the run terminates
early and its trace is exactly the terminal save and evaluation. -/
theorem learn_terminal_witness :
    ∃ pre, (learn ⟨1, 1, 1, 1, 2, 2⟩).trace
        = pre ++ [Event.save (learn ⟨1, 1, 1, 1, 2, 2⟩).iterCount,
            Event.eval (learn ⟨1, 1, 1, 1, 2, 2⟩).iterCount]
      ∧ Event.postBackward (learn ⟨1, 1, 1, 1, 2, 2⟩).iterCount ∉ pre
      ∧ Event.postEpoch (learn ⟨1, 1, 1, 1, 2, 2⟩).iterCount ∉ pre :=
  learn_terminal ⟨1, 1, 1, 1, 2, 2⟩ (by decide) (by decide) (by decide)

/-- C3 counterexample: in the scenario `total_steps = 10,
checkpoint_interval = 5, eval_interval = 10`, 1 epoch of 10 batches, 1
update per batch, `evaluate` is NOT called exactly once at step 10 — the
cadence check `10 % 10 == 0` fires an evaluation and the termination
branch `10 >= 10` then evaluates again, so the evaluation steps are
`[10, 10]`, not `[10]`. -/
theorem scenario_eval_once_cex :
    (learn ⟨1, 10, 1, 10, 5, 10⟩).trace.filterMap evalStep ≠ [10] := by decide

/-- C3 amended: in the scenario `total_steps = 10, checkpoint_interval =
5, eval_interval = 10`, 1 epoch of 10 batches, 1 update per batch, a
checkpoint is saved at steps 5, 10 and 10 (the cadence save and the
terminal save both fire at the terminal step) and `evaluate` is called
twice, both at step 10 (the cadence evaluation and the terminal
evaluation); the run terminates at `iter_count = 10` with the trace ending
in exactly one terminal save followed by one terminal evaluation. -/
theorem scenario_cadence :
    (learn ⟨1, 10, 1, 10, 5, 10⟩).trace.filterMap saveStep = [5, 10, 10]
      ∧ (learn ⟨1, 10, 1, 10, 5, 10⟩).trace.filterMap evalStep = [10, 10]
      ∧ (learn ⟨1, 10, 1, 10, 5, 10⟩).iterCount = 10
      ∧ (learn ⟨1, 10, 1, 10, 5, 10⟩).done = true
      ∧ (learn ⟨1, 10, 1, 10, 5, 10⟩).trace
        = [Event.postBackward 1, Event.postBackward 2, Event.postBackward 3,
            Event.postBackward 4, Event.save 5, Event.postBackward 5,
            Event.postBackward 6, Event.postBackward 7, Event.postBackward 8,
            Event.postBackward 9, Event.save 10, Event.eval 10]
          ++ [Event.save 10, Event.eval 10] := by
  refine ⟨by decide, by decide, by decide, by decide, by decide⟩

/-- C9: in every execution of `learn` that is not cut short by the
`total_steps` termination check (and whose cadence intervals are positive,
so Python raises no `ZeroDivisionError`), `post_backward_callback` runs
exactly once per batch — at step counts `U, 2U, …, (E·B)·U`, i.e. exactly
after the `U` update repetitions of each batch — and `post_epoch_callback`
runs exactly once per epoch, at step counts `B·U, 2·B·U, …, E·(B·U)`,
i.e. exactly after the batches of each epoch are exhausted. -/
theorem learn_callbacks (cfg : LearnConfig)
    (_hc : 0 < cfg.checkpointInterval) (_he : 0 < cfg.evalInterval)
    (h : (learn cfg).done = false) :
    (learn cfg).trace.filterMap postBackwardStep
        = (List.range (cfg.epochs * cfg.numBatches)).map
            (fun i => (i + 1) * cfg.nUpdatesPerBatch)
      ∧ (learn cfg).trace.filterMap postEpochStep
        = (List.range cfg.epochs).map
            (fun i => (i + 1) * (cfg.numBatches * cfg.nUpdatesPerBatch)) := by
  unfold learn at h ⊢
  have h2 := runEpochs_false cfg cfg.epochs 0 h
  refine ⟨?_, ?_⟩
  · rw [h2.2.1]; simp only [Nat.zero_add]
  · rw [h2.2.2]; simp only [Nat.zero_add]

/-- Witness for C9 at `E = 2, B = 2, U = 1, total_steps = 100`: the run is
not cut short, the per-batch hook fires at steps 1, 2, 3, 4 and the
per-epoch hook at steps 2 and 4. -/
theorem learn_callbacks_witness :
    (learn ⟨2, 2, 1, 100, 7, 9⟩).trace.filterMap postBackwardStep = [1, 2, 3, 4]
      ∧ (learn ⟨2, 2, 1, 100, 7, 9⟩).trace.filterMap postEpochStep = [2, 4] := by
  have h := learn_callbacks ⟨2, 2, 1, 100, 7, 9⟩ (by decide) (by decide) (by decide)
  exact ⟨h.1.trans (by decide), h.2.trans (by decide)⟩
/-- C4: the freeze policy keeps gradients on for the last
`num_layers_unfrozen` blocks only — it freezes all blocks when
`num_layers_unfrozen = 0`, the first `max 0 (len - num_layers_unfrozen)`
blocks when `num_layers_unfrozen > 0` (so nothing once it exceeds the
block count, per Python `list[:-n]` slice semantics), and no block at all
when `num_layers_unfrozen < 0`. -/
theorem freeze_policy {α : Type} (blocks : List α) (n : Int) :
    (n = 0 → gptBlocksToFreeze blocks n = blocks)
      ∧ (0 < n →
          gptBlocksToFreeze blocks n
              = blocks.take ((max 0 ((blocks.length : Int) - n)).toNat)
            ∧ ((gptBlocksToFreeze blocks n).length : Int)
              = max 0 ((blocks.length : Int) - n))
      ∧ (n < 0 → gptBlocksToFreeze blocks n = []) := by
  refine ⟨?_, ?_, ?_⟩
  · intro h
    simp [gptBlocksToFreeze, h]
  · intro h
    have hne : ¬ n = 0 := by omega
    have hnat : blocks.length - n.toNat = (max 0 ((blocks.length : Int) - n)).toNat := by
      omega
    unfold gptBlocksToFreeze
    rw [if_neg hne, if_pos h]
    refine ⟨by rw [hnat], ?_⟩
    rw [List.length_take]
    omega
  · intro h
    have hne : ¬ n = 0 := by omega
    have hnlt : ¬ 0 < n := by omega
    unfold gptBlocksToFreeze
    rw [if_neg hne, if_neg hnlt]

/-- Witness for C4 on three concrete blocks: `n = 0` freezes all, `n = 2`
freezes the first block, `n = 5 > len` freezes nothing, `n = -1` freezes
nothing. -/
theorem freeze_policy_witness :
    gptBlocksToFreeze ([0, 1, 2] : List Nat) 0 = [0, 1, 2]
      ∧ gptBlocksToFreeze ([0, 1, 2] : List Nat) 2 = [0]
      ∧ gptBlocksToFreeze ([0, 1, 2] : List Nat) 5 = []
      ∧ gptBlocksToFreeze ([0, 1, 2] : List Nat) (-1) = [] :=
  ⟨(freeze_policy [0, 1, 2] 0).1 rfl,
    (((freeze_policy ([0, 1, 2] : List Nat) 2).2.1 (by decide)).1).trans (by decide),
    (((freeze_policy ([0, 1, 2] : List Nat) 5).2.1 (by decide)).1).trans (by decide),
    (freeze_policy [0, 1, 2] (-1)).2.2 (by decide)⟩

/-- The batches accumulated in `all_samples` are exactly the padded
versions of the generated batches, for main and non-main processes
alike. -/
lemma evaluate_accumulated (isMain : Bool) (tok : Option Tokenizer)
    (maxLength : Nat) (rFn : Option (Samples → List Rat))
    (mFn : Option (Samples → List (String × List Rat)))
    (batches : List (List (List Nat))) :
    (evaluate isMain tok maxLength rFn mFn batches).accumulated
      = batches.map (padSampleBatch maxLength (padTokenOf tok)) := by
  cases isMain <;> rfl

/-- C5: every generated sample batch is right-padded to width
`max_length` before accumulation, and the pad value is the tokenizer's
end-of-sequence id when a tokenizer is configured and `0` otherwise. -/
theorem evaluate_padding (isMain : Bool) (tok : Option Tokenizer) (maxLength : Nat)
    (rFn : Option (Samples → List Rat))
    (mFn : Option (Samples → List (String × List Rat)))
    (batches : List (List (List Nat))) (b : List (List Nat))
    (hb : b ∈ batches) (hw : ∀ r ∈ b, r.length = batchWidth b)
    (hle : batchWidth b ≤ maxLength) :
    padSampleBatch maxLength (padTokenOf tok) b
        = b.map (fun r =>
            r ++ List.replicate (maxLength - batchWidth b) (padTokenOf tok))
      ∧ (∀ r ∈ padSampleBatch maxLength (padTokenOf tok) b, r.length = maxLength)
      ∧ padSampleBatch maxLength (padTokenOf tok) b
          ∈ (evaluate isMain tok maxLength rFn mFn batches).accumulated
      ∧ padTokenOf none = 0
      ∧ ∀ t, padTokenOf (some t) = t.eosTokenId := by
  have hpos : (0 : Int) ≤ (maxLength : Int) - (batchWidth b : Int) := by omega
  have htn : ((maxLength : Int) - (batchWidth b : Int)).toNat
      = maxLength - batchWidth b := by omega
  have hpad : padSampleBatch maxLength (padTokenOf tok) b
      = b.map (fun r =>
          r ++ List.replicate (maxLength - batchWidth b) (padTokenOf tok)) := by
    unfold padSampleBatch fpadRight
    refine List.map_congr_left ?_
    intro r _
    rw [if_pos hpos, htn]
  refine ⟨hpad, ?_, ?_, rfl, fun t => rfl⟩
  · intro r hr
    rw [hpad] at hr
    obtain ⟨r0, hr0, hr0e⟩ := List.mem_map.1 hr
    rw [← hr0e, List.length_append, List.length_replicate, hw r0 hr0]
    omega
  · rw [evaluate_accumulated]
    exact List.mem_map_of_mem _ hb

/-- Witness for C5: two rows of width 3 padded to `max_length = 20` with
no tokenizer configured use pad value `0`; a configured tokenizer
contributes its end-of-sequence id. -/
theorem evaluate_padding_witness :
    padSampleBatch 20 (padTokenOf none) [[1, 2, 3], [4, 5, 6]]
        = [[1, 2, 3], [4, 5, 6]].map
            (fun r =>
              r ++ List.replicate (20 - batchWidth [[1, 2, 3], [4, 5, 6]])
                (padTokenOf none))
      ∧ padSampleBatch 20 (padTokenOf none) [[1, 2, 3], [4, 5, 6]]
          ∈ (evaluate false none 20 none none [[[1, 2, 3], [4, 5, 6]]]).accumulated
      ∧ padTokenOf none = 0
      ∧ padTokenOf (some ⟨9, fun _ => ""⟩) = 9 := by
  have h := evaluate_padding false none 20 none none [[[1, 2, 3], [4, 5, 6]]]
    [[1, 2, 3], [4, 5, 6]] (by decide) (by decide) (by decide)
  exact ⟨h.1, h.2.2.1, h.2.2.2.1, h.2.2.2.2 ⟨9, fun _ => ""⟩⟩

/-- `F.pad` with right-pad amount `m - w` applied to a row of width `w`
always yields width `m`: non-negative amounts append, negative amounts
drop entries from the right. -/
lemma fpadRight_length (m w : Nat) (row : List Nat) (v : Nat)
    (hrow : row.length = w) :
    (fpadRight row ((m : Int) - (w : Int)) v).length = m := by
  unfold fpadRight
  by_cases h : (0 : Int) ≤ (m : Int) - (w : Int)
  · rw [if_pos h, List.length_append, List.length_replicate, hrow]
    omega
  · rw [if_neg h, List.length_take, hrow]
    omega

/-- C10 (implicit): every accumulated batch of `evaluate` has width
exactly `max_length` even when a generated sample is longer than
`max_length` — the negative pad amount truncates from the right instead of
raising — so `torch.vstack` over the accumulation never sees mismatched
widths. -/
theorem evaluate_pad_truncates (isMain : Bool) (tok : Option Tokenizer)
    (maxLength : Nat) (rFn : Option (Samples → List Rat))
    (mFn : Option (Samples → List (String × List Rat)))
    (batches : List (List (List Nat)))
    (hw : ∀ b ∈ batches, ∀ r ∈ b, r.length = batchWidth b) :
    (∀ b ∈ (evaluate isMain tok maxLength rFn mFn batches).accumulated,
        ∀ r ∈ b, r.length = maxLength)
      ∧ ∀ r ∈ vstack (evaluate isMain tok maxLength rFn mFn batches).accumulated,
          r.length = maxLength := by
  have hmain : ∀ b ∈ (evaluate isMain tok maxLength rFn mFn batches).accumulated,
      ∀ r ∈ b, r.length = maxLength := by
    intro b hb r hr
    rw [evaluate_accumulated] at hb
    obtain ⟨b0, hb0, hb0e⟩ := List.mem_map.1 hb
    rw [← hb0e] at hr
    obtain ⟨r0, hr0, hr0e⟩ := List.mem_map.1 hr
    rw [← hr0e]
    exact fpadRight_length maxLength (batchWidth b0) r0 _ (hw b0 hb0 r0 hr0)
  refine ⟨hmain, ?_⟩
  intro r hr
  obtain ⟨b, hb, hrb⟩ := List.mem_flatten.1 hr
  exact hmain b hb r hrb

/-- Witness for C10: with `max_length = 2`, a batch holding the over-long
row `[1, 2, 3]` is truncated to `[1, 2]`, which sits in the stacked
accumulation next to the padded `[7, 0]`. -/
theorem evaluate_pad_truncates_witness :
    [1, 2] ∈ vstack (evaluate false none 2 none none [[[1, 2, 3]], [[7]]]).accumulated
      ∧ ([1, 2] : List Nat).length = 2 :=
  ⟨by decide,
    (evaluate_pad_truncates false none 2 none none [[[1, 2, 3]], [[7]]]
        (by decide)).2 [1, 2] (by decide)⟩
/-- C6: the stats mapping of `evaluate` always carries `generate_time`;
the `samples` table appears exactly on the main process; `mean_reward`
appears exactly on the main process with a reward function; `metric_time`
appears exactly on the main process with a metric function, together with
one `metrics/<name>` key per metric the metric function returned; non-main
processes carry none of the table, reward or metric keys. -/
theorem evaluate_stats_keys (isMain : Bool) (tok : Option Tokenizer)
    (maxLength : Nat) (rFn : Option (Samples → List Rat))
    (mFn : Option (Samples → List (String × List Rat)))
    (batches : List (List (List Nat))) :
    StatKey.generateTime ∈ (evaluate isMain tok maxLength rFn mFn batches).keys
      ∧ (StatKey.samples ∈ (evaluate isMain tok maxLength rFn mFn batches).keys
          ↔ isMain = true)
      ∧ (StatKey.meanReward ∈ (evaluate isMain tok maxLength rFn mFn batches).keys
          ↔ isMain = true ∧ rFn.isSome = true)
      ∧ (StatKey.metricTime ∈ (evaluate isMain tok maxLength rFn mFn batches).keys
          ↔ isMain = true ∧ mFn.isSome = true)
      ∧ ∀ name,
          (StatKey.metric name ∈ (evaluate isMain tok maxLength rFn mFn batches).keys
            ↔ isMain = true ∧ ∃ g, mFn = some g
                ∧ name ∈ (g (mainSamples tok maxLength batches)).map Prod.fst) := by
  cases isMain <;> rcases rFn with _ | f <;> rcases mFn with _ | g <;>
    simp [evaluate, mainSamples, gatherRows, List.mem_map]

/-- C7: when a reward function is supplied, `evaluate` invokes it exactly
once, on the full gathered (and decoded, when a tokenizer exists) sample
sequence; `mean_reward` records the arithmetic mean of the returned
per-sample scalars — in particular `[1, 2, 3]` for 3 samples yields
`mean_reward = 2`. -/
theorem evaluate_mean_reward (tok : Option Tokenizer) (maxLength : Nat)
    (f : Samples → List Rat)
    (mFn : Option (Samples → List (String × List Rat)))
    (batches : List (List (List Nat))) :
    (evaluate true tok maxLength (some f) mFn batches).rewardCalls
        = [mainSamples tok maxLength batches]
      ∧ (evaluate true tok maxLength (some f) mFn batches).meanReward
        = some (listMean (f (mainSamples tok maxLength batches)))
      ∧ (evaluate true none 20 (some fun _ => [1, 2, 3]) none
          [[[0], [1], [2]]]).meanReward = some 2 := by
  refine ⟨rfl, rfl, ?_⟩
  show some (listMean [1, 2, 3]) = some 2
  norm_num [listMean]

/-- First-occurrence lookup after a Python-style `d[k] = v`: key `k` now
maps to `v` and every other key is untouched. -/
lemma dictGet_insert (d : List (String × Nat)) (k : String) (v : Nat)
    (k' : String) :
    dictGet (dictInsert d k v) k' = if k' = k then some v else dictGet d k' := by
  induction d with
  | nil =>
    by_cases h : k' = k
    · subst h; simp [dictInsert, dictGet]
    · have h2 : ¬ (k = k') := fun hh => h hh.symm
      simp [dictInsert, dictGet, h, h2]
  | cons p rest ih =>
    by_cases hpk : p.1 = k
    · by_cases h : k' = k
      · subst h; simp [dictInsert, hpk, dictGet]
      · have h2 : ¬ (k = k') := fun hh => h hh.symm
        have h3 : ¬ (p.1 = k') := by rw [hpk]; exact h2
        simp [dictInsert, hpk, dictGet, h, h2, h3, ih]
    · by_cases hpk' : p.1 = k'
      · have h4 : ¬ (k' = k) := fun hh => hpk (hpk'.trans hh)
        simp [dictInsert, hpk, dictGet, hpk', h4]
      · simp [dictInsert, hpk, dictGet, hpk', ih]

/-- A key absent from a dict looks up to `none`. -/
lemma dictGet_eq_none (l : List (String × Nat)) (k : String)
    (h : k ∉ l.map Prod.fst) :
    dictGet l k = none := by
  induction l with
  | nil => rfl
  | cons p rest ih =>
    simp only [List.map_cons, List.mem_cons, not_or] at h
    have hne : ¬ (p.1 = k) := fun hh => h.1 hh.symm
    simp [dictGet, hne, ih h.2]

/-- Lookup in `dict(d, **kw)` (with `kw` a genuine dict, i.e. no duplicate
keys): the caller's entry wins whenever present, else the default's. -/
lemma dictGet_update (d kw : List (String × Nat))
    (hnd : (kw.map Prod.fst).Nodup) (k : String) :
    dictGet (dictUpdate d kw) k = (dictGet kw k).or (dictGet d k) := by
  induction kw generalizing d with
  | nil => rfl
  | cons p rest ih =>
    rw [List.map_cons, List.nodup_cons] at hnd
    have hstep : dictUpdate d (p :: rest) = dictUpdate (dictInsert d p.1 p.2) rest := rfl
    rw [hstep, ih (dictInsert d p.1 p.2) hnd.2, dictGet_insert]
    by_cases h : k = p.1
    · subst h
      rw [dictGet_eq_none rest p.1 hnd.1, if_pos rfl]
      simp [dictGet]
    · have h2 : ¬ (p.1 = k) := fun hh => h hh.symm
      rw [if_neg h]
      simp [dictGet, h2]

/-- C8: `generate` hands the decoding call the merge
`dict(self.generate_kwargs, **kwargs)` — on every key present in the
caller's kwargs the caller's value wins, any other key falls back to the
default mapping — and the call runs with gradient tracking disabled. -/
theorem generate_merge (generateKwargs kwargs : List (String × Nat))
    (hnd : (kwargs.map Prod.fst).Nodup) :
    (generate generateKwargs kwargs).gradEnabled = false
      ∧ ∀ k, dictGet (generate generateKwargs kwargs).kwargs k
          = (dictGet kwargs k).or (dictGet generateKwargs k) :=
  ⟨rfl, fun k => dictGet_update generateKwargs kwargs hnd k⟩

/-- Witness for C8: with defaults `a = 1, b = 2` and caller kwargs
`b = 9, c = 3`, the merged call sees `b = 9` (caller wins), `a = 1`
(default survives), `c = 3` (caller-only), under disabled gradients. -/
theorem generate_merge_witness :
    (generate [("a", 1), ("b", 2)] [("b", 9), ("c", 3)]).gradEnabled = false
      ∧ dictGet (generate [("a", 1), ("b", 2)] [("b", 9), ("c", 3)]).kwargs "b"
        = some 9
      ∧ dictGet (generate [("a", 1), ("b", 2)] [("b", 9), ("c", 3)]).kwargs "a"
        = some 1
      ∧ dictGet (generate [("a", 1), ("b", 2)] [("b", 9), ("c", 3)]).kwargs "c"
        = some 3 := by
  have h := generate_merge [("a", 1), ("b", 2)] [("b", 9), ("c", 3)] (by decide)
  exact ⟨h.1, (h.2 "b").trans (by decide), (h.2 "a").trans (by decide),
    (h.2 "c").trans (by decide)⟩
